import Mathlib

/-!
Verification of the `stop` space-overview tool (src/stop/main.py) against its
specification.  The Python program is shallowly embedded below: every JSON
record coming from yabai is modelled as a structure whose fields are `Option`s
(a field absent from the record is `none`), Python `dict`s are modelled as
insertion-ordered association lists, Python's stable `sorted` is modelled by
`List.insertionSort` (any two stable sorts agree), and the one place the code
indexes a record without a default (`w["app"]`) is modelled in the `Except`
monad, an uncaught `KeyError` being `Except.error ()`.

Strings are Lean `String`s; Python code-point operations (`len`, slicing,
`strip`) are modelled by `pyStrip`/`pyTake` acting on the underlying character
list.  (`str.strip` strips the ASCII whitespace characters; exotic Unicode
whitespace is outside the model.)

The process-level behaviour of `cli` is captured by `CliResult`:
`fatalExit line` means the program printed exactly the one diagnostic `line`
and terminated via `sys.exit(1)` (non-zero exit code, no table rendered);
`crashed` means an uncaught exception ended the run (whole-run failure);
`success lines` means the program printed `lines` and exited with code 0.
The three external queries (spaces, windows, tmux sessions) are pure inputs:
`none` models a failed query for the two yabai queries, and the tmux input is
the already-normalized session list.
-/

/-- A raw yabai window record.  Fields: `app`, `title`, `space`,
`is-hidden`, `is-minimized`.  `none` models the key being absent. -/
structure RawWindow where
  app : Option String
  title : Option String
  space : Option Int
  isHidden : Option Bool
  isMinimized : Option Bool
deriving DecidableEq

/-- A raw yabai space record.  Fields: `index`, `display`, `label`,
`has-focus`, `is-visible`.  `none` models the key being absent. -/
structure RawSpace where
  index : Option Int
  display : Option Int
  label : Option String
  hasFocus : Option Bool
  isVisible : Option Bool
deriving DecidableEq

/-- Observable outcome of one run of `cli`. -/
inductive CliResult where
  | fatalExit (diagnostic : String)
  | crashed
  | success (lines : List String)
deriving DecidableEq

/- -- ansi helpers -- -/

/-- `_ansi`: wrap text in ANSI escape codes if color is enabled.
The flag `c` models the module-level `_COLOR` constant. -/
def ansi (c : Bool) (code text : String) : String :=
  if c then "\x1b[" ++ code ++ "m" ++ text ++ "\x1b[0m" else text

def dim (c : Bool) (text : String) : String := ansi c "2" text

def green (c : Bool) (text : String) : String := ansi c "32" text

def cyan (c : Bool) (text : String) : String := ansi c "36" text

def bold (c : Bool) (text : String) : String := ansi c "1" text

def yellow (c : Bool) (text : String) : String := ansi c "33" text

/-- `TERMINAL_APPS`: terminal emulator app names, matched exactly. -/
def TERMINAL_APPS : List String :=
  ["kitty", "iTerm2", "Terminal", "Alacritty", "WezTerm", "Hyper", "Rio", "Tabby"]

/-- Membership in the fixed terminal-app set (`w["app"] in TERMINAL_APPS`). -/
def is_terminal (app : String) : Bool := TERMINAL_APPS.contains app

/- -- python string primitives -- -/

/-- Python `str.strip()` on code points. -/
def pyStrip (s : String) : String :=
  String.mk (((s.data.dropWhile Char.isWhitespace).reverse.dropWhile Char.isWhitespace).reverse)

/-- Python `s[:n]` on code points. -/
def pyTake (s : String) (n : Nat) : String := String.mk (s.data.take n)

/- -- formatting -- -/

/-- Evaluation of `w["app"]`: raises `KeyError` (`Except.error ()`) when the
record has no `app` key. -/
def winApp (w : RawWindow) : Except Unit String :=
  match w.app with
  | none => Except.error ()
  | some a => Except.ok a

/-- Evaluating `w["app"]` for each window of the list, left to right, as the
two list comprehensions in `format_windows_for_space` do. -/
def get_apps : List RawWindow → Except Unit (List (String × RawWindow))
  | [] => Except.ok []
  | w :: rest =>
    match winApp w with
    | Except.error e => Except.error e
    | Except.ok a =>
      match get_apps rest with
      | Except.error e => Except.error e
      | Except.ok tail => Except.ok ((a, w) :: tail)

/-- One terminal entry: `app: title` with the stripped title truncated to 47
characters plus `"..."` when longer than 50 characters, or just `app` when the
stripped title is empty. -/
def terminal_part (c : Bool) (app title0 : String) : String :=
  let title := pyStrip title0
  if title = "" then green c app
  else if title.length > 50 then green c (app ++ ": " ++ (pyTake title 47 ++ "..."))
  else green c (app ++ ": " ++ title)

/-- One step of building the `app_counts` dict:
`app_counts[app] = app_counts.get(app, 0) + 1`, insertion-ordered. -/
def dict_incr (d : List (String × Nat)) (a : String) : List (String × Nat) :=
  if d.any (fun p => p.1 == a) then
    d.map (fun p => if p.1 == a then (p.1, p.2 + 1) else p)
  else d ++ [(a, 1)]

/-- The `app_counts` dict built by the loop over non-terminal windows. -/
def app_counts (apps : List String) : List (String × Nat) :=
  apps.foldl dict_incr []

/-- Dict lookup `app_counts[app]` (keys looked up are always present). -/
def dict_get (d : List (String × Nat)) (a : String) : Nat :=
  ((d.find? (fun p => p.1 == a)).map (fun p => p.2)).getD 0

/-- One non-terminal entry: `app (n)` when the count exceeds 1, else `app`. -/
def group_entry (app : String) (n : Nat) : String :=
  if n > 1 then app ++ " (" ++ toString n ++ ")" else app

/-- Lexicographic-by-code-point comparison of two character lists, the order
Python `sorted` uses on `str` values.  (Executable structural recursion; it is
proved below to agree with Lean's `≤` on `String`.) -/
def chars_le : List Char → List Char → Bool
  | [], _ => true
  | _ :: _, [] => false
  | a :: as, b :: bs => if a < b then true else if b < a then false else chars_le as bs

/-- String comparison used by Python `sorted` on `str`. -/
def str_le (a b : String) : Prop := chars_le a.data b.data = true

instance : DecidableRel str_le :=
  fun a b => inferInstanceAs (Decidable (chars_le a.data b.data = true))

/-- The `parts` list built by `format_windows_for_space` for a non-empty
window list: one entry per terminal window in source order, then one entry per
distinct non-terminal app name in sorted order. -/
def format_parts (c : Bool) (windows : List RawWindow) : Except Unit (List String) :=
  match get_apps windows with
  | Except.error e => Except.error e
  | Except.ok ws =>
    let terminals := ws.filter (fun aw => is_terminal aw.1)
    let others := ws.filter (fun aw => !is_terminal aw.1)
    let tparts := terminals.map (fun aw => terminal_part c aw.1 (aw.2.title.getD ""))
    let counts := app_counts (others.map (fun aw => aw.1))
    let skeys := List.insertionSort str_le (counts.map (fun p => p.1))
    Except.ok (tparts ++ skeys.map (fun a => group_entry a (dict_get counts a)))

/-- `format_windows_for_space`: the dim `--` placeholder for an empty list,
otherwise the parts joined by two spaces (with the defensive second
placeholder branch for an empty parts list, as in the source). -/
def format_windows_for_space (c : Bool) (windows : List RawWindow) : Except Unit String :=
  if windows.isEmpty then Except.ok (dim c "--")
  else
    match format_parts c windows with
    | Except.error e => Except.error e
    | Except.ok parts =>
      Except.ok (if parts.isEmpty then dim c "--" else String.intercalate "  " parts)

/-- `any(w["app"] in TERMINAL_APPS for w in wins)`: short-circuiting, raising
`KeyError` on a record with no `app` key. -/
def any_terminal : List RawWindow → Except Unit Bool
  | [] => Except.ok false
  | w :: rest =>
    match winApp w with
    | Except.error e => Except.error e
    | Except.ok a => if is_terminal a then Except.ok true else any_terminal rest

/- -- main -- -/

/-- The three-way filter of the window-indexing loop in `cli`: a window is
kept when `space > 0` (default `0`), not hidden and not minimized
(defaults `False`). -/
def surviving (w : RawWindow) : Bool :=
  decide (0 < w.space.getD 0) && !w.isHidden.getD false && !w.isMinimized.getD false

/-- The `windows_by_space` dict of `cli`, as a total function: the bucket for
`idx` holds the surviving windows assigned to `idx`, in source order
(`dict.get(idx, [])` yields `[]` for a missing key). -/
def windows_by_space (raw_windows : List RawWindow) (idx : Int) : List RawWindow :=
  raw_windows.filter (fun w => surviving w && (w.space.getD 0 == idx))

/-- First-occurrence key order of a Python dict keyed by these values. -/
def dict_keys (l : List Int) : List Int :=
  l.foldl (fun acc d => if acc.contains d then acc else acc ++ [d]) []

/-- `sorted(by_display)`: the distinct display values (default `1`),
ascending. -/
def display_keys (raw_spaces : List RawSpace) : List Int :=
  List.insertionSort (fun a b => a ≤ b) (dict_keys (raw_spaces.map (fun s => s.display.getD 1)))

/-- The `by_display` bucket of one display value, in source order. -/
def spaces_of_display (raw_spaces : List RawSpace) (d : Int) : List RawSpace :=
  raw_spaces.filter (fun s => s.display.getD 1 == d)

/-- The key order used inside one display section. -/
def space_le (a b : RawSpace) : Prop := a.index.getD 0 ≤ b.index.getD 0

instance : DecidableRel space_le :=
  fun a b => inferInstanceAs (Decidable (a.index.getD 0 ≤ b.index.getD 0))

/-- `sorted(by_display[d], key=lambda s: s.get("index", 0))`: Python's sort is
stable, and `List.insertionSort` is the stable sort. -/
def sort_spaces (l : List RawSpace) : List RawSpace :=
  List.insertionSort space_le l

/-- `"%2d" % idx`: decimal rendering right-aligned to width 2. -/
def pad2 (i : Int) : String :=
  let s := toString i
  if s.length < 2 then " " ++ s else s

/-- The body of the inner `for space in spaces` loop: produces the printed
line for each space and accumulates, in traversal order, the indices of free
spaces and of terminal-occupied spaces. -/
def render_spaces (c : Bool) (wbs : Int → List RawWindow) :
    List RawSpace → Except Unit (List String × List Int × List Int)
  | [] => Except.ok ([], [], [])
  | s :: rest =>
    let idx := s.index.getD 0
    let wins := wbs idx
    match format_windows_for_space c wins with
    | Except.error e => Except.error e
    | Except.ok win_text =>
      match any_terminal wins with
      | Except.error e => Except.error e
      | Except.ok ht =>
        match render_spaces c wbs rest with
        | Except.error e => Except.error e
        | Except.ok (lines, free, term) =>
          let indicator : String :=
            if s.hasFocus.getD false then "*"
            else if s.isVisible.getD false then "·" else " "
          let label := s.label.getD ""
          let label_text := if label = "" then "" else dim c ("[" ++ label ++ "] ")
          let line := "  " ++ pad2 idx ++ " " ++ indicator ++ "  " ++ label_text ++ win_text
          Except.ok (line :: lines,
            (if wins.isEmpty then [idx] else []) ++ free,
            (if ht then [idx] else []) ++ term)

/-- One display section: the header line, the sorted spaces, and the blank
line printed after the section. -/
def render_display (c : Bool) (wbs : Int → List RawWindow) (raw_spaces : List RawSpace)
    (d : Int) : Except Unit (List String × List Int × List Int) :=
  let spaces := sort_spaces (spaces_of_display raw_spaces d)
  let header := cyan c ("display " ++ toString d) ++
    dim c (" (" ++ toString spaces.length ++ " spaces)")
  match render_spaces c wbs spaces with
  | Except.error e => Except.error e
  | Except.ok (lines, free, term) => Except.ok (header :: (lines ++ [""]), free, term)

/-- The outer `for display_idx in sorted(by_display)` loop. -/
def render_displays (c : Bool) (wbs : Int → List RawWindow) (raw_spaces : List RawSpace) :
    List Int → Except Unit (List String × List Int × List Int)
  | [] => Except.ok ([], [], [])
  | d :: rest =>
    match render_display c wbs raw_spaces d with
    | Except.error e => Except.error e
    | Except.ok (l1, f1, t1) =>
      match render_displays c wbs raw_spaces rest with
      | Except.error e => Except.error e
      | Except.ok (l2, f2, t2) => Except.ok (l1 ++ l2, f1 ++ f2, t1 ++ t2)

/-- `", ".join(str(i) for i in l)`. -/
def join_indices (l : List Int) : String :=
  String.intercalate ", " (l.map (fun i => toString i))

/-- The bottom summary line: free count with the literal index list (or a
yellow `0 free`), and the terminal clause only when the terminal list is
non-empty. -/
def summary_line (c : Bool) (free term : List Int) : String :=
  let first :=
    if free.isEmpty then yellow c "0 free"
    else green c (toString free.length ++ " free") ++ dim c (" (" ++ join_indices free ++ ")")
  let parts :=
    if term.isEmpty then [first]
    else [first, toString term.length ++ " with terminals" ++
      dim c (" (" ++ join_indices term ++ ")")]
  String.intercalate "  " parts

/-- The optional trailing tmux line. -/
def tmux_lines (c : Bool) (tmux : List String) : List String :=
  if tmux.isEmpty then [] else [dim c ("tmux: " ++ String.intercalate "  " tmux)]

/-- `cli`: the whole run, as a function of the two yabai query results
(`none` models a failed query), the tmux session list and the color flag. -/
def cli (c : Bool) (spacesQ : Option (List RawSpace)) (windowsQ : Option (List RawWindow))
    (tmux : List String) : CliResult :=
  match spacesQ with
  | none => CliResult.fatalExit "error: couldn\x27t query yabai (is it running?)"
  | some raw_spaces =>
    let raw_windows := windowsQ.getD []
    match render_displays c (windows_by_space raw_windows) raw_spaces
        (display_keys raw_spaces) with
    | Except.error _ => CliResult.crashed
    | Except.ok (lines, free, term) =>
      CliResult.success (lines ++ [summary_line c free term] ++ tmux_lines c tmux)

/- -- derived notions used by the statements -- -/

/-- The global space traversal order of the rendering loops: displays
ascending, spaces within a display ascending by index (stable). -/
def traversal (raw_spaces : List RawSpace) : List RawSpace :=
  ((display_keys raw_spaces).map (fun d => sort_spaces (spaces_of_display raw_spaces d))).flatten

/-- Whether a window's `app` (defaulted to `""`) is a terminal app. -/
def is_terminal_win (w : RawWindow) : Bool := is_terminal (w.app.getD "")

/-- The terminal entries of a window list: one per terminal window, in source
order, duplicates preserved. -/
def term_entries (c : Bool) (ws : List RawWindow) : List String :=
  (ws.filter is_terminal_win).map (fun w => terminal_part c (w.app.getD "") (w.title.getD ""))

/-- The app names of the non-terminal windows of a list, in source order,
duplicates preserved. -/
def other_apps (ws : List RawWindow) : List String :=
  (ws.filter (fun w => !is_terminal_win w)).map (fun w => w.app.getD "")

/-- A space record with every field defaulted as `cli` defaults it. -/
def fill_space (s : RawSpace) : RawSpace :=
  ⟨some (s.index.getD 0), some (s.display.getD 1), some (s.label.getD ""),
    some (s.hasFocus.getD false), some (s.isVisible.getD false)⟩

/-- A window record with every field except `app` defaulted as `cli`
defaults it (`app` has no default in the source). -/
def fill_window (w : RawWindow) : RawWindow :=
  ⟨w.app, some (w.title.getD ""), some (w.space.getD 0),
    some (w.isHidden.getD false), some (w.isMinimized.getD false)⟩

/-- Concrete space record used by witnesses. -/
def mk_space (idx d : Int) : RawSpace := ⟨some idx, some d, none, none, none⟩

/-- Concrete window record used by witnesses. -/
def mk_window (app title : String) (sp : Int) : RawWindow :=
  ⟨some app, some title, some sp, none, none⟩

/- -- order lemmas -- -/

theorem chars_le_iff_not_lt : ∀ (x y : List Char), (chars_le x y = true ↔ ¬ List.lt y x)
  | [], y => by
    constructor
    · intro _ h; cases h
    · intro _; rfl
  | a :: as, [] => by
    constructor
    · intro h; simp [chars_le] at h
    · intro h; exact absurd (List.lt.nil a as) h
  | a :: as, b :: bs => by
    by_cases hab : a < b
    · simp only [chars_le, if_pos hab]
      constructor
      · intro _ h
        cases h with
        | head _ _ hba => exact (lt_asymm hab) hba
        | tail h1 h2 h3 => exact h2 hab
      · intro _; trivial
    · by_cases hba : b < a
      · simp only [chars_le, if_neg hab, if_pos hba]
        constructor
        · intro h; cases h
        · intro h; exact absurd (List.lt.head bs as hba) h
      · simp only [chars_le, if_neg hab, if_neg hba]
        rw [chars_le_iff_not_lt as bs]
        constructor
        · intro h hlt
          cases hlt with
          | head _ _ h2 => exact hba h2
          | tail h1 h2 h3 => exact h h3
        · intro h h3
          exact h (List.lt.tail hba hab h3)

theorem str_le_iff (a b : String) : str_le a b ↔ a ≤ b := by
  rw [str_le, chars_le_iff_not_lt, List.lt_iff_lex_lt, String.le_iff_toList_le]
  show _ ↔ (a.data ≤ b.data)
  rw [← not_lt]
  exact not_congr Iff.rfl

instance : IsTotal String str_le :=
  ⟨fun a b => by rw [str_le_iff, str_le_iff]; exact le_total a b⟩

instance : IsTrans String str_le :=
  ⟨fun a b c h1 h2 =>
    (str_le_iff a c).mpr (le_trans ((str_le_iff a b).mp h1) ((str_le_iff b c).mp h2))⟩

instance : IsTotal RawSpace space_le :=
  ⟨fun a b => Int.le_total (a.index.getD 0) (b.index.getD 0)⟩

instance : IsTrans RawSpace space_le :=
  ⟨fun _ _ _ h1 h2 => Int.le_trans h1 h2⟩

/- -- dict lemmas -- -/

theorem map_fst_dict_incr (d : List (String × Nat)) (a : String) :
    (dict_incr d a).map Prod.fst =
      if d.any (fun p => p.1 == a) then d.map Prod.fst else d.map Prod.fst ++ [a] := by
  unfold dict_incr
  split
  · rename_i hany
    rw [List.map_map]
    apply List.map_congr_left
    intro p _
    by_cases h : p.1 == a <;> simp [Function.comp, h]
  · simp

theorem mem_map_fst_dict_incr (d : List (String × Nat)) (b x : String) :
    x ∈ (dict_incr d b).map Prod.fst ↔ x ∈ d.map Prod.fst ∨ x = b := by
  rw [map_fst_dict_incr]
  split
  · rename_i hany
    have hb : b ∈ d.map Prod.fst := by
      rcases List.any_eq_true.mp hany with ⟨p, hp, he⟩
      exact List.mem_map.mpr ⟨p, hp, by simpa using he⟩
    constructor
    · exact Or.inl
    · rintro (h | rfl)
      · exact h
      · exact hb
  · simp

theorem nodup_map_fst_dict_incr (d : List (String × Nat)) (a : String)
    (h : (d.map Prod.fst).Nodup) : ((dict_incr d a).map Prod.fst).Nodup := by
  rw [map_fst_dict_incr]
  split
  · exact h
  · rename_i hany
    have ha : a ∉ d.map Prod.fst := by
      intro hmem
      rcases List.mem_map.mp hmem with ⟨p, hp, hpa⟩
      exact hany (List.any_eq_true.mpr ⟨p, hp, by simp [hpa]⟩)
    simp [List.nodup_append, h, ha]

theorem find?_map_incr (a x : String) : ∀ (d : List (String × Nat)),
    (d.map (fun p => if p.1 == a then (p.1, p.2 + 1) else p)).find? (fun p => p.1 == x) =
      (d.find? (fun p => p.1 == x)).map (fun p => if p.1 == a then (p.1, p.2 + 1) else p)
  | [] => rfl
  | q :: rest => by
    have hfst : ((if q.1 == a then (q.1, q.2 + 1) else q).1 == x) = (q.1 == x) := by
      by_cases hqa : q.1 == a <;> simp [hqa]
    rw [List.map_cons, List.find?_cons, List.find?_cons, hfst]
    by_cases hq : q.1 == x
    · simp [hq]
    · have hq' : (q.1 == x) = false := by simpa using hq
      simp only [hq']
      exact find?_map_incr a x rest

theorem dict_get_dict_incr (d : List (String × Nat)) (a x : String) :
    dict_get (dict_incr d a) x = dict_get d x + (if x = a then 1 else 0) := by
  unfold dict_incr
  split
  · rename_i hany
    unfold dict_get
    rw [find?_map_incr]
    cases hf : d.find? (fun p => p.1 == x) with
    | none =>
      by_cases hxa : x = a
      · exfalso
        subst hxa
        rcases List.any_eq_true.mp hany with ⟨p, hp, he⟩
        exact (List.find?_eq_none.mp hf p hp) he
      · simp [hxa]
    | some p =>
      have hpx' : p.1 = x := by simpa using List.find?_some hf
      by_cases hxa : x = a
      · subst hxa
        simp [hpx']
      · have hne : p.1 ≠ a := by rw [hpx']; exact hxa
        simp [hne, hxa]
  · rename_i hany
    unfold dict_get
    rw [List.find?_append]
    cases hf : d.find? (fun p => p.1 == x) with
    | none =>
      simp only [Option.none_or]
      by_cases hxa : x = a
      · subst hxa
        simp [List.find?]
      · have hne : ((a, (1 : Nat)).1 == x) = false := by
          simp only [beq_eq_false_iff_ne, ne_eq]
          exact fun h => hxa h.symm
        simp [List.find?, hne, hxa]
    | some p =>
      have hpx' : p.1 = x := by simpa using List.find?_some hf
      by_cases hxa : x = a
      · exfalso
        refine hany (List.any_eq_true.mpr ⟨p, List.mem_of_find?_eq_some hf, ?_⟩)
        simp [hpx', hxa]
      · simp [hxa]

theorem dict_get_foldl (apps : List String) (d : List (String × Nat)) (x : String) :
    dict_get (apps.foldl dict_incr d) x = dict_get d x + apps.count x := by
  induction apps generalizing d with
  | nil => simp
  | cons a rest ih =>
    rw [List.foldl_cons, ih, dict_get_dict_incr, List.count_cons]
    have hsw : (if x = a then 1 else 0) = (if (a == x) = true then 1 else 0) := by
      by_cases h : x = a
      · simp [h]
      · have hne : (a == x) = false := by simp [Ne.symm h]
        simp [h, hne]
    rw [hsw]
    omega

theorem nodup_map_fst_app_counts (apps : List String) :
    ((app_counts apps).map Prod.fst).Nodup := by
  unfold app_counts
  suffices h : ∀ (d : List (String × Nat)), (d.map Prod.fst).Nodup →
      ((apps.foldl dict_incr d).map Prod.fst).Nodup from h [] (by simp)
  induction apps with
  | nil => intro d hd; exact hd
  | cons a rest ih =>
    intro d hd
    exact ih (dict_incr d a) (nodup_map_fst_dict_incr d a hd)

theorem mem_map_fst_app_counts (apps : List String) (x : String) :
    x ∈ (app_counts apps).map Prod.fst ↔ x ∈ apps := by
  unfold app_counts
  suffices h : ∀ (d : List (String × Nat)),
      (x ∈ (apps.foldl dict_incr d).map Prod.fst ↔ x ∈ d.map Prod.fst ∨ x ∈ apps) by
    rw [h []]; simp
  induction apps with
  | nil => intro d; simp
  | cons a rest ih =>
    intro d
    rw [List.foldl_cons, ih (dict_incr d a), mem_map_fst_dict_incr]
    constructor
    · rintro ((h | rfl) | h)
      · exact Or.inl h
      · exact Or.inr (List.mem_cons_self _ _)
      · exact Or.inr (List.mem_cons_of_mem _ h)
    · rintro (h | h)
      · exact Or.inl (Or.inl h)
      · rcases List.mem_cons.mp h with rfl | h2
        · exact Or.inl (Or.inr rfl)
        · exact Or.inr h2

theorem dict_get_app_counts (apps : List String) (x : String) :
    dict_get (app_counts apps) x = apps.count x := by
  unfold app_counts
  rw [dict_get_foldl]
  simp [dict_get]

/- -- get_apps and any_terminal lemmas -- -/

theorem get_apps_ok_of : ∀ (ws : List RawWindow), (∀ w ∈ ws, w.app.isSome = true) →
    get_apps ws = Except.ok (ws.map (fun w => (w.app.getD "", w)))
  | [], _ => rfl
  | w :: rest, h => by
    have hw := h w (List.mem_cons_self _ _)
    cases ha : w.app with
    | none => rw [ha] at hw; cases hw
    | some a =>
      have hr := get_apps_ok_of rest (fun w' hw' => h w' (List.mem_cons_of_mem _ hw'))
      simp only [get_apps, winApp, ha, hr, List.map_cons]
      rfl

theorem get_apps_ok_elim {ws : List RawWindow} {l : List (String × RawWindow)}
    (h : get_apps ws = Except.ok l) :
    (∀ w ∈ ws, w.app.isSome = true) ∧ l = ws.map (fun w => (w.app.getD "", w)) := by
  induction ws generalizing l with
  | nil =>
    simp only [get_apps] at h
    cases h
    exact ⟨fun w hw => absurd hw (List.not_mem_nil w), rfl⟩
  | cons w rest ih =>
    cases ha : w.app with
    | none => simp [get_apps, winApp, ha] at h
    | some a =>
      cases hr : get_apps rest with
      | error e => simp [get_apps, winApp, ha, hr] at h
      | ok tail =>
        simp only [get_apps, winApp, ha, hr] at h
        cases h
        obtain ⟨h1, h2⟩ := ih hr
        refine ⟨?_, ?_⟩
        · intro w' hw'
          rcases List.mem_cons.mp hw' with rfl | h3
          · simp [ha]
          · exact h1 w' h3
        · simp [List.map_cons, ha, ← h2]

theorem get_apps_error_of : ∀ (ws : List RawWindow) (w : RawWindow), w ∈ ws →
    w.app = none → get_apps ws = Except.error ()
  | [], w, hw, _ => absurd hw (List.not_mem_nil w)
  | w' :: rest, w, hw, ha => by
    rcases List.mem_cons.mp hw with rfl | h2
    · simp [get_apps, winApp, ha]
    · cases ha' : w'.app with
      | none => simp [get_apps, winApp, ha']
      | some a =>
        have hr := get_apps_error_of rest w h2 ha
        simp [get_apps, winApp, ha', hr]

theorem any_terminal_ok_of : ∀ (ws : List RawWindow), (∀ w ∈ ws, w.app.isSome = true) →
    any_terminal ws = Except.ok (ws.any is_terminal_win)
  | [], _ => rfl
  | w :: rest, h => by
    have hw := h w (List.mem_cons_self _ _)
    cases ha : w.app with
    | none => rw [ha] at hw; cases hw
    | some a =>
      have hr := any_terminal_ok_of rest (fun w' hw' => h w' (List.mem_cons_of_mem _ hw'))
      by_cases ht : is_terminal a
      · simp [any_terminal, winApp, ha, ht, List.any_cons, is_terminal_win]
      · simp [any_terminal, winApp, ha, ht, hr, List.any_cons, is_terminal_win]

/- -- format_parts characterization -- -/

theorem map_pair_filter_term (c : Bool) (ws : List RawWindow) :
    (((ws.map (fun w => (w.app.getD "", w))).filter (fun aw => is_terminal aw.1)).map
      (fun aw => terminal_part c aw.1 (aw.2.title.getD ""))) = term_entries c ws := by
  rw [List.filter_map, List.map_map]
  rfl

theorem map_pair_filter_other (ws : List RawWindow) :
    (((ws.map (fun w => (w.app.getD "", w))).filter (fun aw => !is_terminal aw.1)).map
      (fun aw => aw.1)) = other_apps ws := by
  rw [List.filter_map, List.map_map]
  rfl

theorem format_parts_eval (c : Bool) (ws : List RawWindow)
    (h : ∀ w ∈ ws, w.app.isSome = true) :
    format_parts c ws = Except.ok (term_entries c ws ++
      (List.insertionSort str_le ((app_counts (other_apps ws)).map Prod.fst)).map
        (fun a => group_entry a (dict_get (app_counts (other_apps ws)) a))) := by
  unfold format_parts
  rw [get_apps_ok_of ws h]
  simp only [map_pair_filter_term, map_pair_filter_other]

theorem format_parts_elim {c : Bool} {ws : List RawWindow} {parts : List String}
    (h : format_parts c ws = Except.ok parts) :
    (∀ w ∈ ws, w.app.isSome = true) ∧
    parts = term_entries c ws ++
      (List.insertionSort str_le ((app_counts (other_apps ws)).map Prod.fst)).map
        (fun a => group_entry a (dict_get (app_counts (other_apps ws)) a)) := by
  cases hg : get_apps ws with
  | error e =>
    exfalso
    unfold format_parts at h
    rw [hg] at h
    cases h
  | ok l =>
    have happ := (get_apps_ok_elim hg).1
    rw [format_parts_eval c ws happ] at h
    cases h
    exact ⟨happ, rfl⟩

theorem format_parts_ne_nil {c : Bool} {ws : List RawWindow} {parts : List String}
    (h : format_parts c ws = Except.ok parts) (hne : ws ≠ []) : parts ≠ [] := by
  obtain ⟨happ, hp⟩ := format_parts_elim h
  subst hp
  obtain ⟨w, hw⟩ := List.exists_mem_of_ne_nil ws hne
  intro hcon
  rw [List.append_eq_nil] at hcon
  by_cases ht : is_terminal_win w
  · have hmem : terminal_part c (w.app.getD "") (w.title.getD "") ∈ term_entries c ws :=
      List.mem_map_of_mem _ (List.mem_filter.mpr ⟨hw, ht⟩)
    rw [hcon.1] at hmem
    exact absurd hmem (List.not_mem_nil _)
  · have hmem : (w.app.getD "") ∈ other_apps ws :=
      List.mem_map_of_mem _ (List.mem_filter.mpr ⟨hw, by simp [ht]⟩)
    have hkeys : (w.app.getD "") ∈ (app_counts (other_apps ws)).map Prod.fst :=
      (mem_map_fst_app_counts _ _).mpr hmem
    have hskeys : (w.app.getD "") ∈
        List.insertionSort str_le ((app_counts (other_apps ws)).map Prod.fst) :=
      (List.mem_insertionSort _).mpr hkeys
    have hfin : group_entry (w.app.getD "")
        (dict_get (app_counts (other_apps ws)) (w.app.getD "")) ∈
        (List.insertionSort str_le ((app_counts (other_apps ws)).map Prod.fst)).map
          (fun a => group_entry a (dict_get (app_counts (other_apps ws)) a)) :=
      List.mem_map_of_mem _ hskeys
    rw [hcon.2] at hfin
    exact absurd hfin (List.not_mem_nil _)

theorem any_terminal_of_format {c : Bool} {wins : List RawWindow} {wt : String} {ht : Bool}
    (hf : format_windows_for_space c wins = Except.ok wt)
    (ha : any_terminal wins = Except.ok ht) :
    ht = wins.any is_terminal_win := by
  cases wins with
  | nil =>
    simp only [any_terminal] at ha
    cases ha
    rfl
  | cons w rest =>
    unfold format_windows_for_space at hf
    simp only [List.isEmpty_cons, Bool.false_eq_true, if_false] at hf
    cases hp : format_parts c (w :: rest) with
    | error e => rw [hp] at hf; cases hf
    | ok parts =>
      have happ := (format_parts_elim hp).1
      rw [any_terminal_ok_of _ happ] at ha
      cases ha
      rfl

/- -- render_spaces lemmas -- -/

theorem format_empty (c : Bool) : format_windows_for_space c [] = Except.ok (dim c "--") := rfl

theorem any_terminal_nil : any_terminal [] = Except.ok false := rfl

theorem render_spaces_elim {c : Bool} {wbs : Int → List RawWindow} {ss : List RawSpace}
    {lines : List String} {free term : List Int}
    (h : render_spaces c wbs ss = Except.ok (lines, free, term)) :
    free = (ss.filter (fun s => (wbs (s.index.getD 0)).isEmpty)).map
      (fun s => s.index.getD 0) ∧
    term = (ss.filter (fun s => (wbs (s.index.getD 0)).any is_terminal_win)).map
      (fun s => s.index.getD 0) := by
  induction ss generalizing lines free term with
  | nil =>
    simp only [render_spaces] at h
    cases h
    exact ⟨rfl, rfl⟩
  | cons s rest ih =>
    simp only [render_spaces] at h
    cases hf : format_windows_for_space c (wbs (s.index.getD 0)) with
    | error e => rw [hf] at h; cases h
    | ok wt =>
      rw [hf] at h
      cases ha : any_terminal (wbs (s.index.getD 0)) with
      | error e => rw [ha] at h; cases h
      | ok ht =>
        rw [ha] at h
        cases hr : render_spaces c wbs rest with
        | error e => rw [hr] at h; cases h
        | ok triple =>
          obtain ⟨l2, f2, t2⟩ := triple
          rw [hr] at h
          cases h
          obtain ⟨ihf, iht⟩ := ih hr
          have hterm := any_terminal_of_format hf ha
          subst hterm
          constructor
          · rw [List.filter_cons]
            by_cases he : (wbs (s.index.getD 0)).isEmpty <;> simp [he, ihf]
          · rw [List.filter_cons]
            by_cases hb : (wbs (s.index.getD 0)).any is_terminal_win <;> simp [hb, iht]

theorem render_spaces_congr {c : Bool} {wbs1 wbs2 : Int → List RawWindow} :
    ∀ (ss : List RawSpace), (∀ s ∈ ss, wbs1 (s.index.getD 0) = wbs2 (s.index.getD 0)) →
    render_spaces c wbs1 ss = render_spaces c wbs2 ss
  | [], _ => rfl
  | s :: rest, h => by
    have h1 := h s (List.mem_cons_self _ _)
    have h2 := @render_spaces_congr c wbs1 wbs2 rest
      (fun s' hs' => h s' (List.mem_cons_of_mem _ hs'))
    simp only [render_spaces, h1, h2]

theorem render_spaces_error {c : Bool} {wbs : Int → List RawWindow} :
    ∀ (ss : List RawSpace) (s : RawSpace), s ∈ ss →
    format_windows_for_space c (wbs (s.index.getD 0)) = Except.error () →
    render_spaces c wbs ss = Except.error ()
  | [], s, hs, _ => absurd hs (List.not_mem_nil s)
  | s' :: rest, s, hs, hf => by
    rcases List.mem_cons.mp hs with rfl | h2
    · simp only [render_spaces, hf]
    · cases hf' : format_windows_for_space c (wbs (s'.index.getD 0)) with
      | error e => cases e; simp only [render_spaces, hf']
      | ok wt =>
        cases ha : any_terminal (wbs (s'.index.getD 0)) with
        | error e => cases e; simp only [render_spaces, hf', ha]
        | ok ht =>
          have hr := render_spaces_error rest s h2 hf
          simp only [render_spaces, hf', ha, hr]

theorem render_spaces_empty (c : Bool) (wbs : Int → List RawWindow) :
    ∀ (ss : List RawSpace), (∀ s ∈ ss, wbs (s.index.getD 0) = []) →
    ∃ lines, render_spaces c wbs ss = Except.ok (lines, ss.map (fun s => s.index.getD 0), [])
  | [], _ => ⟨[], rfl⟩
  | s :: rest, h => by
    obtain ⟨lines, hl⟩ := render_spaces_empty c wbs rest
      (fun s' hs' => h s' (List.mem_cons_of_mem _ hs'))
    have h0 : wbs (s.index.getD 0) = [] := h s (List.mem_cons_self _ _)
    refine ⟨("  " ++ pad2 (s.index.getD 0) ++ " " ++
      (if s.hasFocus.getD false then "*" else if s.isVisible.getD false then "·" else " ") ++
      "  " ++ (if s.label.getD "" = "" then ""
        else dim c ("[" ++ s.label.getD "" ++ "] ")) ++ dim c "--") :: lines, ?_⟩
    simp only [render_spaces, h0, format_empty, any_terminal_nil, hl]
    rfl

/- -- render_displays lemmas -- -/

theorem render_display_elim {c : Bool} {wbs : Int → List RawWindow} {raws : List RawSpace}
    {d : Int} {lines : List String} {free term : List Int}
    (h : render_display c wbs raws d = Except.ok (lines, free, term)) :
    free = ((sort_spaces (spaces_of_display raws d)).filter
      (fun s => (wbs (s.index.getD 0)).isEmpty)).map (fun s => s.index.getD 0) ∧
    term = ((sort_spaces (spaces_of_display raws d)).filter
      (fun s => (wbs (s.index.getD 0)).any is_terminal_win)).map (fun s => s.index.getD 0) := by
  simp only [render_display] at h
  cases hr : render_spaces c wbs (sort_spaces (spaces_of_display raws d)) with
  | error e => rw [hr] at h; cases h
  | ok triple =>
    obtain ⟨l, f, t⟩ := triple
    rw [hr] at h
    cases h
    exact render_spaces_elim hr

theorem render_displays_elim {c : Bool} {wbs : Int → List RawWindow} {raws : List RawSpace} :
    ∀ {ds : List Int} {lines : List String} {free term : List Int},
    render_displays c wbs raws ds = Except.ok (lines, free, term) →
    free = (((ds.map (fun d => sort_spaces (spaces_of_display raws d))).flatten).filter
      (fun s => (wbs (s.index.getD 0)).isEmpty)).map (fun s => s.index.getD 0) ∧
    term = (((ds.map (fun d => sort_spaces (spaces_of_display raws d))).flatten).filter
      (fun s => (wbs (s.index.getD 0)).any is_terminal_win)).map (fun s => s.index.getD 0)
  | [], lines, free, term => fun h => by
    simp only [render_displays] at h
    cases h
    exact ⟨rfl, rfl⟩
  | d :: rest, lines, free, term => fun h => by
    simp only [render_displays] at h
    cases h1 : render_display c wbs raws d with
    | error e => rw [h1] at h; cases h
    | ok t1 =>
      obtain ⟨l1, f1, t1'⟩ := t1
      rw [h1] at h
      cases h2 : render_displays c wbs raws rest with
      | error e => rw [h2] at h; cases h
      | ok t2 =>
        obtain ⟨l2, f2, t2'⟩ := t2
        rw [h2] at h
        cases h
        obtain ⟨hf1, ht1⟩ := render_display_elim h1
        obtain ⟨hf2, ht2⟩ := render_displays_elim h2
        constructor
        · rw [List.map_cons, List.flatten_cons, List.filter_append, List.map_append,
            hf1, hf2]
        · rw [List.map_cons, List.flatten_cons, List.filter_append, List.map_append,
            ht1, ht2]

theorem mem_of_mem_sorted_display {raws : List RawSpace} {d : Int} {s : RawSpace}
    (h : s ∈ sort_spaces (spaces_of_display raws d)) : s ∈ raws :=
  (List.mem_filter.mp ((List.mem_insertionSort _).mp h)).1

theorem render_display_congr {c : Bool} {wbs1 wbs2 : Int → List RawWindow}
    {raws : List RawSpace} (d : Int)
    (h : ∀ s ∈ raws, wbs1 (s.index.getD 0) = wbs2 (s.index.getD 0)) :
    render_display c wbs1 raws d = render_display c wbs2 raws d := by
  simp only [render_display]
  rw [render_spaces_congr (sort_spaces (spaces_of_display raws d))
    (fun s hs => h s (mem_of_mem_sorted_display hs))]

theorem render_displays_congr {c : Bool} {wbs1 wbs2 : Int → List RawWindow}
    {raws : List RawSpace}
    (h : ∀ s ∈ raws, wbs1 (s.index.getD 0) = wbs2 (s.index.getD 0)) :
    ∀ (ds : List Int), render_displays c wbs1 raws ds = render_displays c wbs2 raws ds
  | [] => rfl
  | d :: rest => by
    have h1 := @render_display_congr c wbs1 wbs2 raws d h
    have h2 := @render_displays_congr c wbs1 wbs2 raws h rest
    simp only [render_displays, h1, h2]

theorem render_display_error {c : Bool} {wbs : Int → List RawWindow} {raws : List RawSpace}
    {d : Int} {s : RawSpace} (hs : s ∈ sort_spaces (spaces_of_display raws d))
    (hf : format_windows_for_space c (wbs (s.index.getD 0)) = Except.error ()) :
    render_display c wbs raws d = Except.error () := by
  simp only [render_display, render_spaces_error _ s hs hf]

theorem render_displays_error {c : Bool} {wbs : Int → List RawWindow} {raws : List RawSpace}
    {d : Int} {s : RawSpace} :
    ∀ (ds : List Int), d ∈ ds → s ∈ sort_spaces (spaces_of_display raws d) →
    format_windows_for_space c (wbs (s.index.getD 0)) = Except.error () →
    render_displays c wbs raws ds = Except.error ()
  | [], hd, _, _ => absurd hd (List.not_mem_nil d)
  | d' :: rest, hd, hs, hf => by
    rcases List.mem_cons.mp hd with rfl | h2
    · simp only [render_displays, render_display_error hs hf]
    · cases h1 : render_display c wbs raws d' with
      | error e => cases e; simp only [render_displays, h1]
      | ok t1 =>
        obtain ⟨l1, f1, t1'⟩ := t1
        have hr := render_displays_error rest h2 hs hf
        simp only [render_displays, h1, hr]

theorem render_displays_empty {c : Bool} {wbs : Int → List RawWindow} {raws : List RawSpace}
    (h : ∀ s ∈ raws, wbs (s.index.getD 0) = []) :
    ∀ (ds : List Int), ∃ lines, render_displays c wbs raws ds =
      Except.ok (lines,
        ((ds.map (fun d => sort_spaces (spaces_of_display raws d))).flatten).map
          (fun s => s.index.getD 0), [])
  | [] => ⟨[], rfl⟩
  | d :: rest => by
    obtain ⟨lines2, hl2⟩ := @render_displays_empty c wbs raws h rest
    obtain ⟨lines1, hl1⟩ := render_spaces_empty c wbs (sort_spaces (spaces_of_display raws d))
      (fun s hs => h s (mem_of_mem_sorted_display hs))
    refine ⟨(cyan c ("display " ++ toString d) ++
      dim c (" (" ++ toString (sort_spaces (spaces_of_display raws d)).length ++ " spaces)")) ::
      (lines1 ++ [""]) ++ lines2, ?_⟩
    simp only [render_displays, render_display, hl1, hl2]
    rw [List.map_cons, List.flatten_cons, List.map_append]
    rfl

/- -- traversal lemmas -- -/

theorem mem_dict_keys (l : List Int) (x : Int) : x ∈ dict_keys l ↔ x ∈ l := by
  unfold dict_keys
  suffices h : ∀ acc, x ∈ l.foldl (fun acc d => if acc.contains d then acc else acc ++ [d]) acc
      ↔ x ∈ acc ∨ x ∈ l by
    rw [h []]; simp
  induction l with
  | nil => intro acc; simp
  | cons a rest ih =>
    intro acc
    rw [List.foldl_cons, ih]
    by_cases hc : acc.contains a
    · rw [if_pos hc]
      have ha : a ∈ acc := by simpa using hc
      constructor
      · rintro (h | h)
        · exact Or.inl h
        · exact Or.inr (List.mem_cons_of_mem _ h)
      · rintro (h | h)
        · exact Or.inl h
        · rcases List.mem_cons.mp h with rfl | h2
          · exact Or.inl ha
          · exact Or.inr h2
    · rw [if_neg hc]
      constructor
      · rintro (h | h)
        · rcases List.mem_append.mp h with h1 | h1
          · exact Or.inl h1
          · rcases List.mem_singleton.mp h1 with rfl
            exact Or.inr (List.mem_cons_self _ _)
        · exact Or.inr (List.mem_cons_of_mem _ h)
      · rintro (h | h)
        · exact Or.inl (List.mem_append.mpr (Or.inl h))
        · rcases List.mem_cons.mp h with rfl | h2
          · exact Or.inl (List.mem_append.mpr (Or.inr (List.mem_singleton.mpr rfl)))
          · exact Or.inr h2

theorem mem_sorted_display_self {raws : List RawSpace} {s : RawSpace} (hs : s ∈ raws) :
    s ∈ sort_spaces (spaces_of_display raws (s.display.getD 1)) :=
  (List.mem_insertionSort _).mpr (List.mem_filter.mpr ⟨hs, by simp⟩)

theorem mem_display_keys_self {raws : List RawSpace} {s : RawSpace} (hs : s ∈ raws) :
    (s.display.getD 1) ∈ display_keys raws :=
  (List.mem_insertionSort _).mpr ((mem_dict_keys _ _).mpr (List.mem_map_of_mem _ hs))

/- -- windows_by_space lemmas -- -/

theorem mem_windows_by_space {wins : List RawWindow} {w : RawWindow}
    (hw : w ∈ wins) (hs : surviving w = true) :
    w ∈ windows_by_space wins (w.space.getD 0) :=
  List.mem_filter.mpr ⟨hw, by simp [hs]⟩

theorem format_windows_error {c : Bool} {l : List RawWindow} {w : RawWindow}
    (hw : w ∈ l) (ha : w.app = none) :
    format_windows_for_space c l = Except.error () := by
  cases l with
  | nil => exact absurd hw (List.not_mem_nil w)
  | cons w' rest =>
    unfold format_windows_for_space
    simp only [List.isEmpty_cons, Bool.false_eq_true, if_false]
    unfold format_parts
    rw [get_apps_error_of _ w hw ha]

/- -- claim theorems -- -/

/-- C1: a window whose `space` field (default 0) is `≤ 0`, or whose
`is-hidden` or `is-minimized` flag (default false) is set, is excluded from
aggregation: the space-bucket map of the whole window list is unchanged by
deleting it, the window lies in no bucket (so it can appear in no space's
rendered window summary), and the entire output of `cli` — including the
free/terminal classification in the summary line — is identical with and
without it. -/
theorem excluded_windows_inert (c : Bool) (raws : List RawSpace)
    (l1 l2 : List RawWindow) (w : RawWindow) (tmux : List String)
    (h : w.space.getD 0 ≤ 0 ∨ w.isHidden.getD false = true ∨
      w.isMinimized.getD false = true) :
    windows_by_space (l1 ++ w :: l2) = windows_by_space (l1 ++ l2)
    ∧ w ∉ windows_by_space (l1 ++ w :: l2) (w.space.getD 0)
    ∧ cli c (some raws) (some (l1 ++ w :: l2)) tmux =
        cli c (some raws) (some (l1 ++ l2)) tmux := by
  have hsurv : surviving w = false := by
    rcases h with h | h | h
    · have hd : decide (0 < w.space.getD 0) = false := decide_eq_false (by omega)
      simp [surviving, hd]
    · simp [surviving, h]
    · simp [surviving, h]
  have hfun : windows_by_space (l1 ++ w :: l2) = windows_by_space (l1 ++ l2) := by
    funext idx
    unfold windows_by_space
    rw [List.filter_append, List.filter_append, List.filter_cons]
    simp [hsurv]
  refine ⟨hfun, ?_, ?_⟩
  · intro hmem
    have hp := (List.mem_filter.mp hmem).2
    rw [hsurv] at hp
    simp at hp
  · simp only [cli, Option.getD]
    rw [hfun]

/-- Witness for C1: a concrete hidden window on space 2 is dropped and the
run's output is unchanged. -/
theorem excluded_windows_inert_witness :
    ((⟨some "Safari", some "doc", some 2, some true, none⟩ : RawWindow).space.getD 0 ≤ 0 ∨
      (⟨some "Safari", some "doc", some 2, some true, none⟩ :
        RawWindow).isHidden.getD false = true ∨
      (⟨some "Safari", some "doc", some 2, some true, none⟩ :
        RawWindow).isMinimized.getD false = true)
    ∧ cli false (some [mk_space 1 1, mk_space 2 1])
        (some ([mk_window "kitty" "x" 1] ++
          (⟨some "Safari", some "doc", some 2, some true, none⟩ : RawWindow) :: [])) []
      = cli false (some [mk_space 1 1, mk_space 2 1])
          (some ([mk_window "kitty" "x" 1] ++ [])) [] :=
  ⟨Or.inr (Or.inl rfl),
    (excluded_windows_inert false [mk_space 1 1, mk_space 2 1] [mk_window "kitty" "x" 1] []
      ⟨some "Safari", some "doc", some 2, some true, none⟩ []
      (Or.inr (Or.inl rfl))).2.2⟩

/-- C7: when the space query is unavailable (`none`), `cli` is exactly the
fatal exit: one diagnostic line, `sys.exit(1)` (non-zero), and no table or
summary rendered — regardless of the window query, tmux sessions or color. -/
theorem fatal_when_spaces_unavailable (c : Bool) (windowsQ : Option (List RawWindow))
    (tmux : List String) :
    cli c none windowsQ tmux =
      CliResult.fatalExit "error: couldn\x27t query yabai (is it running?)" := rfl

/-- C10: surviving windows whose space index matches no listed space's index
are invisible: deleting all of them from the window list leaves the rendered
output of `cli` character-for-character identical. -/
theorem orphan_windows_inert (c : Bool) (raws : List RawSpace) (wins : List RawWindow)
    (tmux : List String) :
    cli c (some raws)
      (some (wins.filter (fun w => !(surviving w &&
        !((raws.map (fun s => s.index.getD 0)).contains (w.space.getD 0)))))) tmux
    = cli c (some raws) (some wins) tmux := by
  have hagree : ∀ s ∈ raws,
      windows_by_space (wins.filter (fun w => !(surviving w &&
        !((raws.map (fun s => s.index.getD 0)).contains (w.space.getD 0)))))
        (s.index.getD 0) = windows_by_space wins (s.index.getD 0) := by
    intro s hs
    unfold windows_by_space
    rw [List.filter_filter]
    apply List.filter_congr
    intro w _
    by_cases hsv : surviving w
    · by_cases hsp : w.space.getD 0 == s.index.getD 0
      · have hco : (raws.map (fun s => s.index.getD 0)).contains (w.space.getD 0) = true := by
          have hmem : s.index.getD 0 ∈ raws.map (fun s => s.index.getD 0) :=
            List.mem_map_of_mem _ hs
          rw [show w.space.getD 0 = s.index.getD 0 from by simpa using hsp]
          simpa using hmem
        have heq : w.space.getD 0 = s.index.getD 0 := by simpa using hsp
        simp [hsv, hsp, hco]
        exact ⟨s, hs, heq.symm⟩
      · simp [hsv, hsp]
    · simp [hsv]
  simp only [cli, Option.getD_some]
  rw [render_displays_congr hagree (display_keys raws)]

/-- C2: a space renders the free placeholder iff its filtered window list is
empty, and its index joins the free-space list iff its filtered window list
is empty — an iff in both directions for every input.  Formally: (a) the
free-index list of the rendering loop is exactly the index of every traversed
space with empty bucket, in order; (b) the placeholder branch of
`format_windows_for_space` (empty `windows`, or the defensive empty-`parts`
branch) is taken iff the window list is empty; (c) the empty list renders
exactly the dim `--` placeholder. -/
theorem free_placeholder_iff (c : Bool) (wbs : Int → List RawWindow) (ss : List RawSpace)
    (lines : List String) (free term : List Int) (ws : List RawWindow) (parts : List String)
    (hr : render_spaces c wbs ss = Except.ok (lines, free, term))
    (hp : format_parts c ws = Except.ok parts) :
    free = (ss.filter (fun s => (wbs (s.index.getD 0)).isEmpty)).map (fun s => s.index.getD 0)
    ∧ ((ws.isEmpty || parts.isEmpty) = true ↔ ws = [])
    ∧ format_windows_for_space c [] = Except.ok (dim c "--") := by
  refine ⟨(render_spaces_elim hr).1, ?_, rfl⟩
  constructor
  · intro hor
    rcases Bool.or_eq_true_iff.mp hor with h | h
    · exact List.isEmpty_iff.mp h
    · by_contra hne
      exact format_parts_ne_nil hp hne (List.isEmpty_iff.mp h)
  · intro hws
    subst hws
    simp

/-- Witness for C2: one space with an empty bucket is rendered as the
placeholder and collected as free; a one-window list takes the non-placeholder
branch. -/
theorem free_placeholder_iff_witness :
    (render_spaces false (windows_by_space []) [mk_space 1 1] =
        Except.ok (["   1    --"], [1], [])
      ∧ format_parts false [mk_window "Finder" "" 1] = Except.ok ["Finder"])
    ∧ ([1] = (([mk_space 1 1].filter
          (fun s => (windows_by_space [] (s.index.getD 0)).isEmpty)).map
            (fun s => s.index.getD 0))
      ∧ (([mk_window "Finder" "" 1].isEmpty || (["Finder"] : List String).isEmpty) = true ↔
          [mk_window "Finder" "" 1] = [])
      ∧ format_windows_for_space false [] = Except.ok (dim false "--")) :=
  ⟨⟨by rfl, by rfl⟩,
    free_placeholder_iff false (windows_by_space []) [mk_space 1 1] ["   1    --"] [1] []
      [mk_window "Finder" "" 1] ["Finder"] (by rfl) (by rfl)⟩

/-- C3: terminal windows are never grouped or deduplicated: the parts list of
a space opens with one entry per terminal window, in source order — two
terminal windows with the same app and title still give two entries — and the
number of terminal entries equals the number of terminal windows. -/
theorem terminals_listed_individually (c : Bool) (ws : List RawWindow) (parts : List String)
    (h : format_parts c ws = Except.ok parts) :
    ∃ rest, parts = term_entries c ws ++ rest
      ∧ (term_entries c ws).length = (ws.filter is_terminal_win).length := by
  obtain ⟨happ, hp⟩ := format_parts_elim h
  exact ⟨_, hp, by simp [term_entries]⟩

/-- Witness for C3: two identical kitty windows produce two identical
entries. -/
theorem terminals_listed_individually_witness :
    (format_parts false [mk_window "kitty" "s" 1, mk_window "kitty" "s" 1] =
        Except.ok ["kitty: s", "kitty: s"])
    ∧ (∃ rest, (["kitty: s", "kitty: s"] : List String) =
        term_entries false [mk_window "kitty" "s" 1, mk_window "kitty" "s" 1] ++ rest
        ∧ (term_entries false [mk_window "kitty" "s" 1, mk_window "kitty" "s" 1]).length =
          ([mk_window "kitty" "s" 1, mk_window "kitty" "s" 1].filter is_terminal_win).length) :=
  ⟨by rfl,
    terminals_listed_individually false [mk_window "kitty" "s" 1, mk_window "kitty" "s" 1]
      ["kitty: s", "kitty: s"] (by rfl)⟩

/-- C4: non-terminal windows sharing an app name within one space are merged
into a single `group_entry` — `app (n)` when the exact count `n` exceeds 1,
plain `app` when `n = 1` — and the distinct app names appear after all
terminal entries, in alphabetical (lexicographic) order, without
duplicates. -/
theorem nonterminals_grouped_alphabetical (c : Bool) (ws : List RawWindow)
    (parts : List String) (h : format_parts c ws = Except.ok parts) :
    ∃ apps : List String,
      parts = term_entries c ws ++
        apps.map (fun a => group_entry a ((other_apps ws).count a))
      ∧ List.Sorted str_le apps ∧ apps.Nodup
      ∧ (∀ a, a ∈ apps ↔ a ∈ other_apps ws) := by
  obtain ⟨happ, hp⟩ := format_parts_elim h
  refine ⟨List.insertionSort str_le ((app_counts (other_apps ws)).map Prod.fst),
    ?_, List.sorted_insertionSort str_le _, ?_, ?_⟩
  · rw [hp]
    congr 1
    apply List.map_congr_left
    intro a _
    rw [dict_get_app_counts]
  · exact ((List.perm_insertionSort str_le _).nodup_iff).mpr (nodup_map_fst_app_counts _)
  · intro a
    rw [List.mem_insertionSort, mem_map_fst_app_counts]

/-- Witness for C4: two Safari windows and one Notes window yield
`Notes  Safari (2)`, alphabetical, with the exact duplicate count. -/
theorem nonterminals_grouped_alphabetical_witness :
    (format_parts false [mk_window "Safari" "" 1, mk_window "Notes" "" 1,
        mk_window "Safari" "" 1] = Except.ok ["Notes", "Safari (2)"])
    ∧ (∃ apps : List String,
        (["Notes", "Safari (2)"] : List String) =
          term_entries false [mk_window "Safari" "" 1, mk_window "Notes" "" 1,
            mk_window "Safari" "" 1] ++
          apps.map (fun a => group_entry a
            ((other_apps [mk_window "Safari" "" 1, mk_window "Notes" "" 1,
              mk_window "Safari" "" 1]).count a))
        ∧ List.Sorted str_le apps ∧ apps.Nodup
        ∧ (∀ a, a ∈ apps ↔ a ∈ other_apps [mk_window "Safari" "" 1, mk_window "Notes" "" 1,
            mk_window "Safari" "" 1])) :=
  ⟨by rfl,
    nonterminals_grouped_alphabetical false
      [mk_window "Safari" "" 1, mk_window "Notes" "" 1, mk_window "Safari" "" 1]
      ["Notes", "Safari (2)"] (by rfl)⟩

/-- C5: for a terminal window whose stripped title is non-empty, a title of at
most 50 characters is rendered unmodified, and a title of 51 or more
characters is rendered as its first 47 characters followed by the 3-character
`...` marker, for a rendered title length of exactly 50. -/
theorem title_truncation (c : Bool) (app t : String) (h : pyStrip t ≠ "") :
    ((pyStrip t).length ≤ 50 → terminal_part c app t = green c (app ++ ": " ++ pyStrip t))
    ∧ (51 ≤ (pyStrip t).length →
        terminal_part c app t = green c (app ++ ": " ++ (pyTake (pyStrip t) 47 ++ "..."))
        ∧ (pyTake (pyStrip t) 47 ++ "...").length = 50) := by
  constructor
  · intro hle
    simp only [terminal_part]
    rw [if_neg h, if_neg (by omega : ¬ (pyStrip t).length > 50)]
  · intro hge
    constructor
    · simp only [terminal_part]
      rw [if_neg h, if_pos (by omega : (pyStrip t).length > 50)]
    · have h1 : (pyTake (pyStrip t) 47).length = 47 := by
        show ((pyStrip t).data.take 47).length = 47
        rw [List.length_take]
        have h2 : 51 ≤ (pyStrip t).data.length := hge
        omega
      rw [String.length_append, h1]
      rfl

/-- Witness for C5 at a 51-character title: the rendered title is the
47-character prefix plus `...`, of length exactly 50. -/
theorem title_truncation_witness :
    (pyStrip "aaaaaaaaaaaaaaaaaaaaaaaaaaaaaaaaaaaaaaaaaaaaaaaaaaa" ≠ "")
    ∧ (terminal_part false "kitty" "aaaaaaaaaaaaaaaaaaaaaaaaaaaaaaaaaaaaaaaaaaaaaaaaaaa" =
        green false ("kitty" ++ ": " ++
          (pyTake (pyStrip "aaaaaaaaaaaaaaaaaaaaaaaaaaaaaaaaaaaaaaaaaaaaaaaaaaa") 47 ++ "..."))
      ∧ (pyTake (pyStrip "aaaaaaaaaaaaaaaaaaaaaaaaaaaaaaaaaaaaaaaaaaaaaaaaaaa") 47 ++
          "...").length = 50) :=
  ⟨by decide,
    (title_truncation false "kitty" "aaaaaaaaaaaaaaaaaaaaaaaaaaaaaaaaaaaaaaaaaaaaaaaaaaa"
      (by decide)).2 (by decide)⟩

/-- C6: the free-space and terminal-space index lists accumulate in the
display/space traversal order — displays ascending, spaces within a display
ascending by index — not in numeric sort of the flattened set. -/
theorem indices_follow_traversal (c : Bool) (wbs : Int → List RawWindow)
    (raws : List RawSpace) (lines : List String) (free term : List Int)
    (h : render_displays c wbs raws (display_keys raws) = Except.ok (lines, free, term)) :
    free = ((traversal raws).filter (fun s => (wbs (s.index.getD 0)).isEmpty)).map
      (fun s => s.index.getD 0)
    ∧ term = ((traversal raws).filter
        (fun s => (wbs (s.index.getD 0)).any is_terminal_win)).map (fun s => s.index.getD 0)
    ∧ List.Sorted (fun a b => a ≤ b) (display_keys raws)
    ∧ (∀ d, List.Sorted space_le (sort_spaces (spaces_of_display raws d))) := by
  obtain ⟨h1, h2⟩ := render_displays_elim h
  refine ⟨?_, ?_, ?_, fun d => List.sorted_insertionSort space_le _⟩
  · rw [traversal]; exact h1
  · rw [traversal]; exact h2
  · rw [display_keys]; exact List.sorted_insertionSort _ _

/-- Witness for C6: display 1 holds spaces 3 and 4, display 2 holds spaces 1
and 2; the free list comes out `[3, 4, 1, 2]` — traversal order, not the
numeric sort `[1, 2, 3, 4]`. -/
theorem indices_follow_traversal_witness :
    (render_displays false (windows_by_space [])
        [mk_space 3 1, mk_space 4 1, mk_space 1 2, mk_space 2 2]
        (display_keys [mk_space 3 1, mk_space 4 1, mk_space 1 2, mk_space 2 2]) =
      Except.ok (["display 1 (2 spaces)", "   3    --", "   4    --", "",
        "display 2 (2 spaces)", "   1    --", "   2    --", ""], [3, 4, 1, 2], []))
    ∧ ([3, 4, 1, 2] : List Int) =
        ((traversal [mk_space 3 1, mk_space 4 1, mk_space 1 2, mk_space 2 2]).filter
          (fun s => (windows_by_space [] (s.index.getD 0)).isEmpty)).map
            (fun s => s.index.getD 0) :=
  ⟨by rfl,
    (indices_follow_traversal false (windows_by_space [])
      [mk_space 3 1, mk_space 4 1, mk_space 1 2, mk_space 2 2]
      ["display 1 (2 spaces)", "   3    --", "   4    --", "",
        "display 2 (2 spaces)", "   1    --", "   2    --", ""] [3, 4, 1, 2] []
      (by rfl)).1⟩

/-- C8: when the window query fails but the space query succeeds, the run
still succeeds: every bucket is empty, each traversed space is free (the free
list is the full traversal-order index list), the terminal list is empty (so
the `with terminals` clause is omitted from the summary), and for three
spaces 1, 2, 3 the summary line reads exactly `3 free (1, 2, 3)`. -/
theorem windows_failure_all_free (c : Bool) (raws : List RawSpace) (tmux : List String) :
    (∃ lines,
      render_displays c (windows_by_space []) raws (display_keys raws) =
        Except.ok (lines, (traversal raws).map (fun s => s.index.getD 0), [])
      ∧ cli c (some raws) none tmux = CliResult.success (lines ++
          [summary_line c ((traversal raws).map (fun s => s.index.getD 0)) []] ++
          tmux_lines c tmux))
    ∧ (∀ idx, windows_by_space [] idx = [])
    ∧ summary_line false [1, 2, 3] [] = "3 free (1, 2, 3)" := by
  refine ⟨?_, fun idx => rfl, by rfl⟩
  obtain ⟨lines, hl⟩ := @render_displays_empty c (windows_by_space []) raws
    (fun s _ => rfl) (display_keys raws)
  rw [show ((traversal raws).map (fun s => s.index.getD 0)) =
    (((display_keys raws).map (fun d => sort_spaces (spaces_of_display raws d))).flatten).map
      (fun s => s.index.getD 0) from by rw [traversal]]
  refine ⟨lines, hl, ?_⟩
  simp only [cli, Option.getD_none]
  rw [hl]

/- -- default-filling lemmas (C9) -- -/

theorem isEmpty_map {α β : Type} (f : α → β) (l : List α) :
    (l.map f).isEmpty = l.isEmpty := by
  cases l <;> rfl

theorem wbs_map_fill (wins : List RawWindow) (idx : Int) :
    windows_by_space (wins.map fill_window) idx =
      (windows_by_space wins idx).map fill_window := by
  unfold windows_by_space
  rw [List.filter_map]
  exact congrArg (List.map fill_window) (List.filter_congr (fun w _ => rfl))

theorem term_entries_map_fill (c : Bool) (l : List RawWindow) :
    term_entries c (l.map fill_window) = term_entries c l := by
  unfold term_entries
  rw [List.filter_map, List.map_map]
  rfl

theorem other_apps_map_fill (l : List RawWindow) :
    other_apps (l.map fill_window) = other_apps l := by
  unfold other_apps
  rw [List.filter_map, List.map_map]
  rfl

theorem format_parts_map_fill (c : Bool) (l : List RawWindow) :
    format_parts c (l.map fill_window) = format_parts c l := by
  by_cases hall : ∀ w ∈ l, w.app.isSome = true
  · have hall2 : ∀ w ∈ l.map fill_window, w.app.isSome = true := by
      intro w hw
      rcases List.mem_map.mp hw with ⟨w0, hw0, rfl⟩
      exact hall w0 hw0
    rw [format_parts_eval c _ hall2, format_parts_eval c l hall,
      term_entries_map_fill, other_apps_map_fill]
  · obtain ⟨w, hw, hnone⟩ : ∃ w ∈ l, w.app = none := by
      by_contra hc
      push_neg at hc
      apply hall
      intro w hw
      cases ha : w.app with
      | none => exact absurd ha (hc w hw)
      | some a => rfl
    have h1 := get_apps_error_of l w hw hnone
    have h2 := get_apps_error_of (l.map fill_window) (fill_window w)
      (List.mem_map_of_mem _ hw) hnone
    unfold format_parts
    rw [h1, h2]

theorem any_terminal_map_fill : ∀ (l : List RawWindow),
    any_terminal (l.map fill_window) = any_terminal l
  | [] => rfl
  | w :: rest => by
    simp only [List.map_cons, any_terminal, winApp]
    rw [show (fill_window w).app = w.app from rfl]
    cases ha : w.app with
    | none => rfl
    | some a =>
      by_cases ht : is_terminal a
      · simp [ht]
      · simp [ht, any_terminal_map_fill rest]

theorem format_windows_map_fill (c : Bool) (l : List RawWindow) :
    format_windows_for_space c (l.map fill_window) = format_windows_for_space c l := by
  unfold format_windows_for_space
  rw [isEmpty_map, format_parts_map_fill]

theorem display_keys_map_fill (raws : List RawSpace) :
    display_keys (raws.map fill_space) = display_keys raws := by
  unfold display_keys
  rw [List.map_map]
  rfl

theorem spaces_of_display_map_fill (raws : List RawSpace) (d : Int) :
    spaces_of_display (raws.map fill_space) d = (spaces_of_display raws d).map fill_space := by
  unfold spaces_of_display
  rw [List.filter_map]
  exact congrArg (List.map fill_space) (List.filter_congr (fun s _ => rfl))

theorem orderedInsert_map_fill (a : RawSpace) : ∀ (l : List RawSpace),
    List.orderedInsert space_le (fill_space a) (l.map fill_space) =
      (List.orderedInsert space_le a l).map fill_space
  | [] => rfl
  | b :: bs => by
    simp only [List.map_cons, List.orderedInsert]
    by_cases hle : space_le a b
    · rw [if_pos (show space_le (fill_space a) (fill_space b) from hle), if_pos hle]
      rfl
    · rw [if_neg (show ¬ space_le (fill_space a) (fill_space b) from hle), if_neg hle,
        orderedInsert_map_fill a bs]
      rfl

theorem sort_spaces_map_fill : ∀ (l : List RawSpace),
    sort_spaces (l.map fill_space) = (sort_spaces l).map fill_space
  | [] => rfl
  | a :: l => by
    show List.orderedInsert space_le (fill_space a) (List.insertionSort space_le
      (l.map fill_space)) = _
    rw [show List.insertionSort space_le (l.map fill_space) = sort_spaces (l.map fill_space)
        from rfl,
      sort_spaces_map_fill l, orderedInsert_map_fill]
    rfl

theorem render_spaces_map_fill (c : Bool) (wins : List RawWindow) : ∀ (ss : List RawSpace),
    render_spaces c (windows_by_space (wins.map fill_window)) (ss.map fill_space) =
      render_spaces c (windows_by_space wins) ss
  | [] => rfl
  | s :: rest => by
    have hrec := render_spaces_map_fill c wins rest
    simp only [render_spaces, List.map_cons]
    rw [show (fill_space s).index.getD 0 = s.index.getD 0 from rfl,
      wbs_map_fill wins (s.index.getD 0),
      format_windows_map_fill c (windows_by_space wins (s.index.getD 0)),
      any_terminal_map_fill (windows_by_space wins (s.index.getD 0)),
      isEmpty_map, hrec,
      show (fill_space s).hasFocus.getD false = s.hasFocus.getD false from rfl,
      show (fill_space s).isVisible.getD false = s.isVisible.getD false from rfl,
      show (fill_space s).label.getD "" = s.label.getD "" from rfl]

theorem render_display_map_fill (c : Bool) (wins : List RawWindow) (raws : List RawSpace)
    (d : Int) :
    render_display c (windows_by_space (wins.map fill_window)) (raws.map fill_space) d =
      render_display c (windows_by_space wins) raws d := by
  simp only [render_display]
  rw [spaces_of_display_map_fill, sort_spaces_map_fill, render_spaces_map_fill,
    List.length_map]

theorem render_displays_map_fill (c : Bool) (wins : List RawWindow) (raws : List RawSpace) :
    ∀ (ds : List Int),
    render_displays c (windows_by_space (wins.map fill_window)) (raws.map fill_space) ds =
      render_displays c (windows_by_space wins) raws ds
  | [] => rfl
  | d :: rest => by
    simp only [render_displays, render_display_map_fill c wins raws d,
      render_displays_map_fill c wins raws rest]

/-- C9 counterexample: a window record that survives filtering (space 1, not
hidden, not minimized) but lacks the `app` field makes the whole run fail —
`cli` ends in the uncaught-KeyError state instead of producing output, so a
missing field is not always hole-filled harmlessly. -/
theorem missing_app_crashes :
    cli false (some [mk_space 1 1]) (some [⟨none, none, some 1, none, none⟩]) [] =
      CliResult.crashed := rfl

/-- C9 (amended): every absent field of a space or window record is
hole-filled with its documented default (window: title `""`, space `0`,
hidden/minimized `false`; space: index `0`, display `1`, label absent,
focus/visibility `false`) without any effect on the run — with the single
exception of a window's `app` field, which has no default: a surviving window
lacking `app` and assigned to a listed space's index makes the whole run fail
with an uncaught KeyError. -/
theorem defaults_hole_filled_except_app (c : Bool) (raws : List RawSpace)
    (wins : List RawWindow) (tmux : List String) :
    cli c (some (raws.map fill_space)) (some (wins.map fill_window)) tmux =
      cli c (some raws) (some wins) tmux
    ∧ (∀ w ∈ wins, surviving w = true → w.app = none →
        (∃ s ∈ raws, s.index.getD 0 = w.space.getD 0) →
        cli c (some raws) (some wins) tmux = CliResult.crashed) := by
  constructor
  · simp only [cli, Option.getD_some]
    rw [display_keys_map_fill, render_displays_map_fill]
  · rintro w hw hsurv hnone ⟨s, hs, hidx⟩
    have hwb : w ∈ windows_by_space wins (s.index.getD 0) := by
      rw [hidx]
      exact mem_windows_by_space hw hsurv
    have hfmt : format_windows_for_space c (windows_by_space wins (s.index.getD 0)) =
        Except.error () := format_windows_error hwb hnone
    have herr := render_displays_error (display_keys raws)
      (mem_display_keys_self hs) (mem_sorted_display_self hs) hfmt
    simp only [cli, Option.getD_some]
    rw [herr]

/-- Witness for C9 (amended): the crash half at a concrete surviving app-less
window on listed space 2. -/
theorem defaults_hole_filled_except_app_witness :
    ((⟨none, none, some 2, none, none⟩ : RawWindow) ∈
        [(⟨none, none, some 2, none, none⟩ : RawWindow)]
      ∧ surviving ⟨none, none, some 2, none, none⟩ = true
      ∧ (⟨none, none, some 2, none, none⟩ : RawWindow).app = none
      ∧ mk_space 2 1 ∈ [mk_space 2 1]
      ∧ (mk_space 2 1).index.getD 0 =
          (⟨none, none, some 2, none, none⟩ : RawWindow).space.getD 0)
    ∧ cli false (some [mk_space 2 1]) (some [⟨none, none, some 2, none, none⟩]) [] =
        CliResult.crashed :=
  ⟨⟨List.mem_singleton.mpr rfl, by decide, rfl, List.mem_singleton.mpr rfl, by decide⟩,
    (defaults_hole_filled_except_app false [mk_space 2 1]
      [⟨none, none, some 2, none, none⟩] []).2
      ⟨none, none, some 2, none, none⟩ (List.mem_singleton.mpr rfl) (by decide) rfl
      ⟨mk_space 2 1, List.mem_singleton.mpr rfl, by decide⟩⟩
